import Mathlib

/-!
Verification of the RepoSite aggregation pipeline and cache store.

The development shallowly embeds the JavaScript core of the repository:

* the identifier normalizer of the analyze route (trim, lower-case, strip a
  trailing ".git", strip a trailing "/");
* the reference parser GitHubService.parseGitHubUrl (two anchored patterns,
  web URL form and SSH form, first match wins);
* the scoring engine GitHubService.calculateProjectScore together with the
  other pure analysis helpers (complexity, category, deployability);
* the feature extractor GitHubService.extractFeatures;
* the aggregator GitHubService.analyzeRepository with its per-fetch
  failure defaults;
* the in-memory CacheService (findValidCache, upsertCache, recordAccess,
  getCacheStats, searchRepositories, cleanupExpired, clear).

JavaScript Date values are modelled as integer milliseconds.  JavaScript
number arithmetic on the score is modelled over the rationals; the inputs
involved (counts, day fractions) are far below the range where binary
floating point would diverge from exact arithmetic at the precision the
code observes.  Strings are modelled through their character lists; the
character-level helpers below mirror the ECMAScript operations on the
ASCII inputs the code deals with (String.prototype.trim,
String.prototype.toLowerCase, String.prototype.includes).
-/

/-! ### Character and string helpers -/

/-- Whitespace test used by the model of String.prototype.trim.  The
ECMAScript trim set also contains exotic Unicode spaces; the references the
code handles are ASCII, where the two sets agree. -/
def isWsChar (c : Char) : Bool :=
  c = ' ' || c = '\t' || c = '\r' || c = '\n'

/-- Model of String.prototype.trim on character lists: drop whitespace from
both ends. -/
def jsTrim (l : List Char) : List Char :=
  ((l.dropWhile isWsChar).reverse.dropWhile isWsChar).reverse

/-- Model of String.prototype.toLowerCase on character lists (ASCII case
mapping, as performed by Char.toLower). -/
def jsLower (l : List Char) : List Char :=
  l.map Char.toLower

/-- Remove a final occurrence of the suffix, as the regex replacements
`.replace(/\.git$/, '')` and `.replace(/\/$/, '')` do. -/
def dropSuffixOnce (suf l : List Char) : List Char :=
  if suf.isSuffixOf l then l.take (l.length - suf.length) else l

/-- Model of JavaScript `a.includes(b)`: is `needle` a contiguous substring
of the list? -/
def containsSeq (needle : List Char) : List Char → Bool
  | [] => needle.isEmpty
  | c :: rest => needle.isPrefixOf (c :: rest) || containsSeq needle rest

/-- Case-insensitive substring test `a.toLowerCase().includes(b)` where `b`
is already lower-cased, lifted to strings. -/
def lowerContains (hay : String) (needleLower : String) : Bool :=
  containsSeq needleLower.data (jsLower hay.data)

/-! ### Identifier normalizer

Source: the analyze route handler,
`url.trim().toLowerCase().replace(/\.git$/, '').replace(/\/$/, '')`. -/

/-- The four normalization stages on character lists, in source order. -/
def normalizeChars (l : List Char) : List Char :=
  dropSuffixOnce ['/'] (dropSuffixOnce ".git".data (jsLower (jsTrim l)))

/-- Canonical cache key of a raw repository reference. -/
def normalizeUrl (s : String) : String :=
  ⟨normalizeChars s.data⟩

/-! ### Reference parser

Source: GitHubService.parseGitHubUrl.  The two anchored patterns are

  pattern 1:  https?://github.com/OWNER/REPO with OWNER one or more
              non-slash characters, REPO one or more non-slash characters
              matched lazily, then an optional ".git", then an optional
              "/" followed by anything;
  pattern 2:  git@github.com:OWNER/REPO with the same groups and the
              optional ".git", but nothing after it.

Because neither capture group can contain a slash, OWNER is exactly the
segment up to the first slash of the path and the lazy REPO group gives up
a final ".git" exactly when doing so leaves the group non-empty. -/

/-- Strip a literal prefix, returning the remainder on success. -/
def dropLit (lit l : List Char) : Option (List Char) :=
  if lit.isPrefixOf l then some (l.drop lit.length) else none

/-- Consume "http", an optional "s" and "://github.com/" (pattern 1 head).
The optional group makes this exactly a choice between the two whole
origin literals, the TLS one attempted first as the greedy option does. -/
def matchHttpHead (l : List Char) : Option (List Char) :=
  match dropLit "https://github.com/".data l with
  | some r => some r
  | none => dropLit "http://github.com/".data l

/-- The lazy repository group: the segment `seg` (which contains no slash)
is REPO ++ an optional ".git"; laziness strips the ".git" suffix exactly
when the remainder is non-empty. -/
def lazyRepoGroup (seg : List Char) : List Char :=
  if ".git".data.isSuffixOf seg ∧ 4 < seg.length then
    seg.take (seg.length - 4)
  else seg

/-- Tail of pattern 1 after the host: OWNER "/" REPO [".git"] ["/" ...]. -/
def matchPath1 (r : List Char) : Option (List Char × List Char) :=
  let owner := r.takeWhile (· ≠ '/')
  if owner.isEmpty then none
  else
    match r.dropWhile (· ≠ '/') with
    | '/' :: r2 =>
      let seg := r2.takeWhile (· ≠ '/')
      if seg.isEmpty then none else some (owner, lazyRepoGroup seg)
    | _ => none

/-- Tail of pattern 2 after "git@github.com:": OWNER "/" REPO [".git"],
with nothing allowed after the optional ".git" (in particular no slash
anywhere in the repository part). -/
def matchPath2 (r : List Char) : Option (List Char × List Char) :=
  let owner := r.takeWhile (· ≠ '/')
  if owner.isEmpty then none
  else
    match r.dropWhile (· ≠ '/') with
    | '/' :: r2 =>
      if r2.isEmpty ∨ r2.any (· = '/') then none
      else some (owner, lazyRepoGroup r2)
    | _ => none

/-- The whole of pattern 2: the SSH head followed by its tail. -/
def matchSshPattern (s : String) : Option (String × String) :=
  match dropLit "git@github.com:".data s.data with
  | some r =>
    match matchPath2 r with
    | some (o, p) => some (⟨o⟩, ⟨p⟩)
    | none => none
  | none => none

/-- GitHubService.parseGitHubUrl: ordered pattern attempts, first match
wins; returns the (owner, repo) captures, or none where the source throws
the invalid-URL error. -/
def parseGitHubUrl (s : String) : Option (String × String) :=
  match matchHttpHead s.data with
  | some r =>
    match matchPath1 r with
    | some (o, p) => some (⟨o⟩, ⟨p⟩)
    | none => matchSshPattern s
  | none => matchSshPattern s

/-! ### Repository data and scoring engine

Source: the data assembled by GitHubService.analyzeRepository and the pure
helpers calculateComplexity, categorizeProject, assessDeployability and
calculateProjectScore.  Timestamps are integer milliseconds since the
epoch; JavaScript truthiness of the description and homepage strings is
the test against null and the empty string. -/

/-- The GitHub metadata fields the analysis consumes.  Nullable API fields
are options; description and homepage can also be present-but-empty, which
JavaScript truthiness treats like absent. -/
structure RepoMeta where
  id : Nat
  name : String
  fullName : String
  description : Option String
  homepage : Option String
  language : Option String
  topics : List String
  stargazersCount : Nat
  forksCount : Nat
  watchersCount : Nat
  updatedAt : Int
  deriving Repr, DecidableEq

/-- JavaScript truthiness of a nullable string field. -/
def truthyStr : Option String → Bool
  | none => false
  | some s => s ≠ ""

/-- Activity analytics: commit, contributor and release counts. -/
structure Analytics where
  commitCount : Nat
  contributorCount : Nat
  releaseCount : Nat
  deriving Repr, DecidableEq

/-- Language histogram after processing: per-language byte counts sorted
by size, and the primary language.  The source also stores a formatted
percentage string per entry; that presentation-only field is omitted. -/
structure LangData where
  stats : List (String × Nat)
  primary : String
  deriving Repr, DecidableEq

/-- The five technology-stack category buckets. -/
structure TechStack where
  frontend : List String
  backend : List String
  database : List String
  tools : List String
  frameworks : List String
  deriving Repr, DecidableEq

/-- The bucket value detectTechStack starts from and falls back to. -/
def emptyTechStack : TechStack := ⟨[], [], [], [], []⟩

/-- Stable sort modelling Array.prototype.sort with a consistent
comparator: ECMAScript sorting is stable, and a stable sort by a total
preorder is unique, so insertion sort reproduces it exactly.  An element
is inserted before the first element it may precede. -/
def sortedInsert (le : α → α → Bool) (a : α) : List α → List α
  | [] => [a]
  | b :: bs => if le a b then a :: b :: bs else b :: sortedInsert le a bs

/-- Stable sort by the comparator-induced preorder le. -/
def stableSort (le : α → α → Bool) : List α → List α
  | [] => []
  | a :: l => sortedInsert le a (stableSort le l)

/-- JavaScript Math.round: round half toward positive infinity. -/
def jsRound (x : ℚ) : ℤ := ⌊x + 1/2⌋

/-- GitHubService.calculateProjectScore.  Stars give up to 40 points
(stars divided by 10, saturating), forks up to 20 (forks divided by 5,
saturating), recency up to 20 (20 minus a seventh of the days since the
last update, floored at 0), contributors up to 10 (2 each, saturating) and
having a truthy description and homepage 5 points each; the sum is clamped
above at 100 and rounded. -/
def calculateProjectScore (repo : RepoMeta) (analytics : Analytics)
    (now : Int) : ℤ :=
  let daysSinceUpdate : ℚ := ((now : ℚ) - (repo.updatedAt : ℚ)) / (1000 * 60 * 60 * 24)
  let score : ℚ :=
    min ((repo.stargazersCount : ℚ) / 10) 40
    + min ((repo.forksCount : ℚ) / 5) 20
    + max (20 - daysSinceUpdate / 7) 0
    + min ((analytics.contributorCount : ℚ) * 2) 10
    + (if truthyStr repo.description then 5 else 0)
    + (if truthyStr repo.homepage then 5 else 0)
  jsRound (min score 100)

/-- GitHubService.calculateComplexity: ten points per language plus five
per technology, bucketed into three tiers. -/
def calculateComplexity (languages : LangData) (techStack : TechStack) : String :=
  let score := languages.stats.length * 10
    + (techStack.frontend.length + techStack.backend.length
       + techStack.database.length + techStack.tools.length
       + techStack.frameworks.length) * 5
  if score < 30 then "Simple"
  else if score < 60 then "Moderate"
  else "Complex"

/-- GitHubService.categorizeProject: ordered rules, first match wins. -/
def categorizeProject (repo : RepoMeta) (techStack : TechStack) : String :=
  if techStack.frontend.length > 0 ∧ techStack.backend.length > 0 then
    "Full-Stack Application"
  else if techStack.frontend.length > 0 then "Frontend Application"
  else if techStack.backend.length > 0 then "Backend Service"
  else if "Docker" ∈ techStack.tools then "DevOps/Infrastructure"
  else if repo.language = some "Python" then "Python Project"
  else if repo.language = some "JavaScript" then "JavaScript Project"
  else "General Project"

/-- GitHubService.assessDeployability. -/
def assessDeployability (techStack : TechStack) : String :=
  let deployableFrameworks :=
    ["React", "Vue.js", "Angular", "Next.js", "Nuxt.js", "Gatsby"]
  if deployableFrameworks.any (fun f =>
      f ∈ techStack.frontend ∨ f ∈ techStack.frameworks)
    ∨ "Docker" ∈ techStack.tools then "High"
  else if techStack.backend.length > 0 then "Medium"
  else "Low"

/-! ### Feature extractor

Source: GitHubService.extractFeatures — a single forward scan over the
README lines with an in-feature-section flag. -/

/-- The fixed set of section-name indicators. -/
def featureIndicators : List String :=
  ["features", "functionality", "capabilities", "what it does"]

/-- A line whose lower-cased text contains an indicator together with a
heading or emphasis marker opens the feature section. -/
def lineEnters (lower : List Char) : Bool :=
  featureIndicators.any fun ind =>
    containsSeq ind.data lower
      && (containsSeq ['#'] lower || containsSeq "**".data lower)

/-- A heading line (original text starts with the hash) without any
indicator closes the feature section. -/
def lineExits (line lower : List Char) : Bool :=
  (match line with | '#' :: _ => true | _ => false)
    && !(featureIndicators.any fun ind => containsSeq ind.data lower)

/-- The capture of the whitespace-plus-text tail of the two list-item
regexes: at least one whitespace character, then at least one captured
character; the greedy whitespace run backtracks by one position when the
tail is whitespace only. -/
def captureAfterMarker (t : List Char) : Option (List Char) :=
  let k := (t.takeWhile isWsChar).length
  if k = 0 then none
  else if k < t.length then some (t.drop k)
  else if 2 ≤ t.length then some (t.drop (t.length - 1))
  else none

/-- The bullet-item regex: optional leading whitespace, one of minus, star
or plus, whitespace, captured text. -/
def bulletCapture (line : List Char) : Option (List Char) :=
  match line.dropWhile isWsChar with
  | c :: rest =>
    if c = '-' ∨ c = '*' ∨ c = '+' then captureAfterMarker rest else none
  | [] => none

/-- The numbered-item regex: optional leading whitespace, digits, a dot,
whitespace, captured text. -/
def numberCapture (line : List Char) : Option (List Char) :=
  let r := line.dropWhile isWsChar
  let ds := r.takeWhile Char.isDigit
  if ds.isEmpty then none
  else
    match r.drop ds.length with
    | '.' :: rest => captureAfterMarker rest
    | _ => none

/-- The line scan: an entering line turns the flag on, an exiting line
turns it off, and while the flag is on each list item contributes its
trimmed captured text. -/
def extractFeaturesScan : List (List Char) → Bool → List (List Char)
  | [], _ => []
  | line :: rest, inSec =>
    let lower := jsLower line
    if lineEnters lower then extractFeaturesScan rest true
    else if inSec && lineExits line lower then extractFeaturesScan rest false
    else if inSec then
      match bulletCapture line with
      | some cap => jsTrim cap :: extractFeaturesScan rest inSec
      | none =>
        match numberCapture line with
        | some cap => jsTrim cap :: extractFeaturesScan rest inSec
        | none => extractFeaturesScan rest inSec
    else extractFeaturesScan rest inSec

/-- GitHubService.extractFeatures: empty input short-circuits (JavaScript
truthiness of the content string), otherwise scan the newline-split lines
and keep the first ten features. -/
def extractFeatures (content : String) : List String :=
  if content = "" then []
  else ((extractFeaturesScan (content.data.splitOn '\n') false).take 10).map
    fun l => ⟨l⟩

/-! ### Fact fetchers and aggregator

Source: GitHubService.getLanguages, detectTechStack, getAnalytics,
getReadme and analyzeRepository.  The aggregator joins five concurrently
issued fetches with Promise.allSettled and then reads each settled
outcome.  getLanguages, detectTechStack and getAnalytics each contain a
catch-all returning a documented default, so their promises always
fulfill and the aggregator-level fallbacks for them are unreachable; they
are modelled by passing the fetcher its own upstream outcome.  getReadme
fulfills with null on a 404 and rejects on any other failure, so its
settled outcome is a genuine success-or-failure value. -/

/-- A fetched README: raw text and filename.  The source also stores the
HTML rendering produced by the marked library, which is not modelled. -/
structure Readme where
  content : String
  filename : String
  deriving Repr, DecidableEq

/-- One entry of a top-level directory listing. -/
structure ContentsItem where
  name : String
  isFile : Bool
  deriving Repr, DecidableEq

/-- Package-manager and ecosystem marker files (filename to backend-bucket
technology). -/
def packageFiles : List (String × String) :=
  [("package.json", "Node.js"), ("requirements.txt", "Python"),
   ("Pipfile", "Python"), ("Gemfile", "Ruby"), ("pom.xml", "Java"),
   ("build.gradle", "Java"), ("Cargo.toml", "Rust"), ("go.mod", "Go"),
   ("composer.json", "PHP"), ("pubspec.yaml", "Dart/Flutter")]

/-- Framework configuration marker files. -/
def frameworkFiles : List (String × String) :=
  [("angular.json", "Angular"), ("nuxt.config.js", "Nuxt.js"),
   ("next.config.js", "Next.js"), ("gatsby-config.js", "Gatsby"),
   ("vue.config.js", "Vue.js"), ("svelte.config.js", "Svelte"),
   ("astro.config.mjs", "Astro")]

/-- Tool configuration marker files. -/
def toolFiles : List (String × String) :=
  [("Dockerfile", "Docker"), ("docker-compose.yml", "Docker Compose"),
   ("webpack.config.js", "Webpack"), ("vite.config.js", "Vite"),
   ("tailwind.config.js", "Tailwind CSS"), ("postcss.config.js", "PostCSS"),
   (".eslintrc", "ESLint"), ("tsconfig.json", "TypeScript")]

/-- Frontend framework dependency names checked in package.json. -/
def frontendDeps : List (String × String) :=
  [("react", "React"), ("vue", "Vue.js"), ("@angular/core", "Angular"),
   ("svelte", "Svelte")]

/-- Backend framework dependency names checked in package.json. -/
def backendDeps : List (String × String) :=
  [("express", "Express.js"), ("fastify", "Fastify"), ("koa", "Koa.js"),
   ("nestjs", "NestJS")]

/-- Database driver dependency names checked in package.json. -/
def databaseDeps : List (String × String) :=
  [("mongoose", "MongoDB"), ("mysql2", "MySQL"), ("pg", "PostgreSQL"),
   ("sqlite3", "SQLite"), ("redis", "Redis")]

/-- First-match lookup in a filename table. -/
def lookupTable (tbl : List (String × String)) (k : String) : Option String :=
  (tbl.find? fun p => p.1 == k).map (·.2)

/-- The technologies from a dependency table whose names occur among the
dependency keys, in table (source code) order. -/
def depMatches (tbl : List (String × String)) (deps : List String) : List String :=
  tbl.filterMap fun p => if p.1 ∈ deps then some p.2 else none

/-- GitHubService.detectTechStack.  contentsApi is the root-directory
listing fetch (getContents returns the empty listing when that fetch
fails); pkgApi is the fetch-and-parse of package.json, consulted only when
package.json is among the listed files, and its failure is swallowed by
the inner catch.  Every bucket is de-duplicated keeping first occurrences,
as the Set construction does. -/
def detectTechStack (contentsApi : Except String (List ContentsItem))
    (pkgApi : Except String (List String)) : TechStack :=
  let contents := match contentsApi with | .ok c => c | .error _ => []
  let files := (contents.filter (·.isFile)).map (·.name)
  let backendFromFiles := files.filterMap (lookupTable packageFiles)
  let frameworksFromFiles := files.filterMap (lookupTable frameworkFiles)
  let toolsFromFiles := files.filterMap (lookupTable toolFiles)
  let fromDeps :=
    if files.contains "package.json" then
      match pkgApi with
      | .ok deps =>
        (depMatches frontendDeps deps, depMatches backendDeps deps,
         depMatches databaseDeps deps)
      | .error _ => ([], [], [])
    else ([], [], [])
  { frontend := fromDeps.1.eraseDups
    backend := (backendFromFiles ++ fromDeps.2.1).eraseDups
    database := fromDeps.2.2.eraseDups
    tools := toolsFromFiles.eraseDups
    frameworks := frameworksFromFiles.eraseDups }

/-- GitHubService.getLanguages: on a successful fetch, sort the per-language
byte counts descending and take the first name as primary (or the Unknown
marker when there are none); any failure degrades to the empty histogram
with primary Unknown. -/
def getLanguages (api : Except String (List (String × Nat))) : LangData :=
  match api with
  | .error _ => ⟨[], "Unknown"⟩
  | .ok languages =>
    let stats := stableSort (fun a b => b.2 ≤ a.2) languages
    ⟨stats, ((stats.head?).map (·.1)).getD "Unknown"⟩

/-- GitHubService.getAnalytics: the three sub-fetches settle independently
and a rejected sub-fetch contributes a zero count.  The fulfilled commit
value stands for the count already parsed from the pagination header. -/
def getAnalytics (commits contributors releases : Except String Nat) :
    Analytics :=
  ⟨match commits with | .ok n => n | .error _ => 0,
   match contributors with | .ok n => n | .error _ => 0,
   match releases with | .ok n => n | .error _ => 0⟩

/-- The derived analysis block of a composite record. -/
structure AnalysisBlock where
  complexity : String
  category : String
  deployability : String
  score : ℤ
  deriving Repr, DecidableEq

/-- The composite record assembled by analyzeRepository.  The repository
block is the metadata passed through (the source renames fields and adds
presentation data); the generation timestamp string is omitted. -/
structure CompositeRecord where
  repository : RepoMeta
  readme : Option Readme
  languages : LangData
  techStack : TechStack
  analytics : Analytics
  features : List String
  analysis : AnalysisBlock
  deriving Repr, DecidableEq

/-- GitHubService.analyzeRepository after the five fetches have settled:
a rejected mandatory metadata fetch propagates as the pipeline error,
otherwise the record is assembled with each optional fetch replaced by
its default on failure (README null; empty histogram with primary
Unknown; buckets from an empty listing; zero counts). -/
def analyzeRepository
    (repository : Except String RepoMeta)
    (readme : Except String (Option Readme))
    (languagesApi : Except String (List (String × Nat)))
    (contentsApi : Except String (List ContentsItem))
    (pkgApi : Except String (List String))
    (commits contributors releases : Except String Nat)
    (now : Int) : Except String CompositeRecord :=
  match repository with
  | .error e => .error e
  | .ok repoData =>
    let readmeData := match readme with | .ok v => v | .error _ => none
    let languageData := getLanguages languagesApi
    let techStackData := detectTechStack contentsApi pkgApi
    let analyticsData := getAnalytics commits contributors releases
    .ok
      { repository := repoData
        readme := readmeData
        languages := languageData
        techStack := techStackData
        analytics := analyticsData
        features :=
          match readmeData with
          | some r => extractFeatures r.content
          | none => []
        analysis :=
          ⟨calculateComplexity languageData techStackData,
           categorizeProject repoData techStackData,
           assessDeployability techStackData,
           calculateProjectScore repoData analyticsData now⟩ }

/-! ### Cache store

Source: the in-memory CacheService.  The backing JavaScript Map is
modelled as an insertion-ordered association list with unique keys (set on
a present key updates it in place, set on a fresh key appends).  Date
values are integer milliseconds; every operation receives the current time
explicitly where the source calls the Date constructor. -/

/-- One cache entry: the composite record plus cache metadata. -/
structure CacheEntry where
  repositoryUrl : String
  repositoryId : Nat
  fullName : String
  data : CompositeRecord
  createdAt : Int
  updatedAt : Int
  expiresAt : Int
  accessCount : Nat
  lastAccessed : Int
  deriving Repr, DecidableEq

/-- The service state: the store plus the running counters kept in the
stats object of the constructor. -/
structure CacheService where
  cache : List CacheEntry
  totalAccesses : Nat
  totalEntriesStat : Nat
  deriving Repr, DecidableEq

/-- The freshly constructed service. -/
def CacheService.init : CacheService := ⟨[], 0, 0⟩

/-- Map.get: the entry stored under the key. -/
def cacheGet (key : String) (l : List CacheEntry) : Option CacheEntry :=
  l.find? fun e => e.repositoryUrl == key

/-- Map.delete: remove the entry stored under the key. -/
def cacheDelete (key : String) (l : List CacheEntry) : List CacheEntry :=
  l.filter fun e => e.repositoryUrl != key

/-- Map.set: replace in place when the key is present, append otherwise. -/
def cacheSet (key : String) (v : CacheEntry) (l : List CacheEntry) :
    List CacheEntry :=
  if (l.find? fun e => e.repositoryUrl == key).isSome then
    l.map fun e => if e.repositoryUrl == key then v else e
  else l ++ [v]

/-- The fixed 24-hour time-to-live in milliseconds. -/
def ttlMs : Int := 24 * 60 * 60 * 1000

/-- CacheService.findValidCache: a missing key is a miss; a present entry
whose expiry is before now is deleted (lazy eviction, with the stored
entry count refreshed) and reported as a miss; otherwise the entry is
returned and the store is untouched. -/
def findValidCache (s : CacheService) (repositoryUrl : String) (now : Int) :
    Option CacheEntry × CacheService :=
  match cacheGet repositoryUrl s.cache with
  | none => (none, s)
  | some entry =>
    if entry.expiresAt < now then
      let cache := cacheDelete repositoryUrl s.cache
      (none, { s with cache := cache, totalEntriesStat := cache.length })
    else (some entry, s)

/-- CacheService.upsertCache: build the new entry (creation time preserved
across a replace, access counter incremented from the replaced entry or
started at 1, expiry refreshed to now plus the TTL), store it, refresh the
stored entry count and bump the cumulative access counter. -/
def upsertCache (s : CacheService) (repositoryUrl : String)
    (data : CompositeRecord) (now : Int) : CacheEntry × CacheService :=
  let existing := cacheGet repositoryUrl s.cache
  let entry : CacheEntry :=
    { repositoryUrl := repositoryUrl
      repositoryId := data.repository.id
      fullName := data.repository.fullName
      data := data
      createdAt := match existing with | some e => e.createdAt | none => now
      updatedAt := now
      expiresAt := now + ttlMs
      accessCount := match existing with | some e => e.accessCount + 1 | none => 1
      lastAccessed := now }
  let cache := cacheSet repositoryUrl entry s.cache
  (entry,
   { cache := cache
     totalAccesses := s.totalAccesses + 1
     totalEntriesStat := cache.length })

/-- CacheService.recordAccess: when the key holds an entry — with no test
of its expiry — its access counter is incremented, its last-access time
set to now and the cumulative counter bumped; a missing key leaves the
state untouched.  The (possibly bumped) entry is returned as in the
source. -/
def recordAccess (s : CacheService) (repositoryUrl : String) (now : Int) :
    Option CacheEntry × CacheService :=
  match cacheGet repositoryUrl s.cache with
  | none => (none, s)
  | some entry =>
    let bumped := { entry with
      accessCount := entry.accessCount + 1
      lastAccessed := now }
    (some bumped,
     { s with
       cache := s.cache.map fun e =>
         if e.repositoryUrl == repositoryUrl then bumped else e
       totalAccesses := s.totalAccesses + 1 })

/-- The aggregate report built by CacheService.getCacheStats. -/
structure CacheStatsReport where
  totalEntries : Nat
  validEntries : Nat
  expiredEntries : Nat
  totalAccesses : Nat
  avgAccessCount : ℚ
  oldestEntry : Option Int
  newestEntry : Option Int
  deriving Repr, DecidableEq

/-- The sum of the access counters of the listed entries. -/
def accessSum (l : List CacheEntry) : Nat :=
  l.foldl (fun acc e => acc + e.accessCount) 0

/-- Math.min over the creation times (none when the store is empty). -/
def oldestOf (l : List CacheEntry) : Option Int :=
  match l with
  | [] => none
  | e :: rest => some (rest.foldl (fun m x => min m x.createdAt) e.createdAt)

/-- Math.max over the creation times (none when the store is empty). -/
def newestOf (l : List CacheEntry) : Option Int :=
  match l with
  | [] => none
  | e :: rest => some (rest.foldl (fun m x => max m x.createdAt) e.createdAt)

/-- CacheService.getCacheStats: entry counts over all entries, the
valid/expired split against now, the cumulative access counter kept by
the service, the mean access counter over current entries and the extreme
creation times. -/
def getCacheStats (s : CacheService) (now : Int) : CacheStatsReport :=
  let entries := s.cache
  let validEntries := entries.filter fun e => now < e.expiresAt
  { totalEntries := entries.length
    validEntries := validEntries.length
    expiredEntries := entries.length - validEntries.length
    totalAccesses := s.totalAccesses
    avgAccessCount :=
      if entries.length > 0 then (accessSum entries : ℚ) / (entries.length : ℚ)
      else 0
    oldestEntry := oldestOf entries
    newestEntry := newestOf entries }

/-- One row of a search result page. -/
structure SearchResult where
  url : String
  name : String
  description : Option String
  language : Option String
  stars : Nat
  topics : List String
  analyzedAt : Int
  accessCount : Nat
  deriving Repr, DecidableEq

/-- The case-insensitive match over name, description, language and
topics; the needle is the already lower-cased query.  The source guard
for a record without a repository block is unreachable because every
stored record carries one. -/
def entryMatches (qLower : String) (e : CacheEntry) : Bool :=
  let repo := e.data.repository
  lowerContains repo.name qLower
  || (match repo.description with
      | some d => lowerContains d qLower | none => false)
  || (match repo.language with
      | some lg => lowerContains lg qLower | none => false)
  || repo.topics.any fun t => lowerContains t qLower

/-- The search comparator: an entry may stay before another when it has a
strictly larger access counter, or an equal counter and at least as many
stars. -/
def searchLE (a b : CacheEntry) : Bool :=
  b.accessCount < a.accessCount
  || (a.accessCount == b.accessCount
      && decide (b.data.repository.stargazersCount
        ≤ a.data.repository.stargazersCount))

/-- The row built from a ranked entry (the record name with the stored
full name as fallback for a falsy name, as in the source). -/
def toSearchResult (e : CacheEntry) : SearchResult :=
  { url := e.repositoryUrl
    name :=
      if e.data.repository.name = "" then e.fullName
      else e.data.repository.name
    description := e.data.repository.description
    language := e.data.repository.language
    stars := e.data.repository.stargazersCount
    topics := e.data.repository.topics
    analyzedAt := e.createdAt
    accessCount := e.accessCount }

/-- A search result page. -/
structure SearchPage where
  results : List SearchResult
  total : Nat
  page : Nat
  limit : Nat
  pages : Nat
  deriving Repr, DecidableEq

/-- CacheService.searchRepositories: filter the valid entries by the
case-insensitive match, rank by access counter descending with star-count
ties, slice out the requested page and report page arithmetic.  The
routes clamp page to at least 1 and limit to between 1 and 50; page
arithmetic is stated with truncated natural subtraction and ceiling
division accordingly. -/
def searchRepositories (s : CacheService) (query : String)
    (page limit : Nat) (now : Int) : SearchPage :=
  let validEntries := s.cache.filter fun e => now < e.expiresAt
  let searchQuery : String := ⟨jsLower query.data⟩
  let filtered := validEntries.filter (entryMatches searchQuery)
  let sorted := stableSort searchLE filtered
  let skip := (page - 1) * limit
  { results := ((sorted.drop skip).take limit).map toSearchResult
    total := filtered.length
    page := page
    limit := limit
    pages := (filtered.length + limit - 1) / limit }

/-- CacheService.cleanupExpired: delete every entry whose expiry is before
now, refresh the stored entry count, return the number deleted. -/
def cleanupExpired (s : CacheService) (now : Int) : Nat × CacheService :=
  let remaining := s.cache.filter fun e => ¬ (e.expiresAt < now)
  (s.cache.length - remaining.length,
   { s with cache := remaining, totalEntriesStat := remaining.length })

/-- CacheService.clear: drop everything, return the prior size.  The
cumulative access counter is left untouched. -/
def clearCache (s : CacheService) : Nat × CacheService :=
  (s.cache.length, { s with cache := [], totalEntriesStat := 0 })

/-- The state-changing operations of the cache service, for reasoning
about operation sequences. -/
inductive CacheOp where
  | find (key : String) (now : Int)
  | upsert (key : String) (data : CompositeRecord) (now : Int)
  | access (key : String) (now : Int)
  | cleanup (now : Int)
  | clearAll
  deriving Repr, DecidableEq

/-- The state reached after one operation. -/
def applyOp (s : CacheService) : CacheOp → CacheService
  | .find k now => (findValidCache s k now).2
  | .upsert k d now => (upsertCache s k d now).2
  | .access k now => (recordAccess s k now).2
  | .cleanup now => (cleanupExpired s now).2
  | .clearAll => (clearCache s).2

/-- The state reached after a sequence of operations. -/
def runOps (s : CacheService) (ops : List CacheOp) : CacheService :=
  ops.foldl applyOp s

/-! ### Auxiliary predicates for the cache theorems -/

/-- The stored keys, in store order. -/
def keysOf (l : List CacheEntry) : List String :=
  l.map (·.repositoryUrl)

/-- The state invariant of the service: keys are unique (the store is a
map) and the cumulative access counter dominates the sum of the access
counters currently stored. -/
def CacheInv (s : CacheService) : Prop :=
  (keysOf s.cache).Nodup ∧ accessSum s.cache ≤ s.totalAccesses

/-- The ranking required of consecutive search rows: strictly more
accesses, or equally many accesses and at least as many stars. -/
def rankedBefore (u v : SearchResult) : Prop :=
  v.accessCount < u.accessCount
  ∨ (u.accessCount = v.accessCount ∧ v.stars ≤ u.stars)

/-! ### Concrete fixtures used by counterexamples and witnesses -/

/-- Metadata with the given name, full name and star count and every
other field empty. -/
def mkMeta (name fullName : String) (stars : Nat) : RepoMeta :=
  ⟨0, name, fullName, none, none, none, [], stars, 0, 0, 0⟩

/-- A composite record around the given metadata, with every optional part
at its default. -/
def mkRecord (meta : RepoMeta) : CompositeRecord :=
  { repository := meta
    readme := none
    languages := ⟨[], "Unknown"⟩
    techStack := emptyTechStack
    analytics := ⟨0, 0, 0⟩
    features := []
    analysis := ⟨"Simple", "General Project", "Low", 0⟩ }

/-- The record scoring 100: a thousand stars, a hundred forks, an update
at the present instant, plus description and homepage. -/
def repoFull : RepoMeta :=
  { id := 1, name := "r", fullName := "o/r", description := some "d",
    homepage := some "h", language := some "JavaScript", topics := [],
    stargazersCount := 1000, forksCount := 100, watchersCount := 0,
    updatedAt := 0 }

/-- The degenerate record: no stars, forks, description or homepage. -/
def repoEmpty : RepoMeta :=
  { id := 1, name := "r", fullName := "o/r", description := none,
    homepage := none, language := none, topics := [],
    stargazersCount := 0, forksCount := 0, watchersCount := 0,
    updatedAt := 0 }

/-- An entry expiring exactly at time 100. -/
def entryBoundary : CacheEntry :=
  ⟨"k", 0, "o/r", mkRecord (mkMeta "r" "o/r" 0), 0, 0, 100, 1, 0⟩

/-- A store holding only the boundary entry. -/
def storeBoundary : CacheService := ⟨[entryBoundary], 1, 1⟩

/-- An entry already expired at time 100. -/
def entryStale : CacheEntry :=
  ⟨"k", 0, "o/r", mkRecord (mkMeta "r" "o/r" 0), 0, 0, 50, 1, 0⟩

/-- A store holding only the stale entry. -/
def storeStale : CacheService := ⟨[entryStale], 1, 1⟩

/-- A valid entry with five accesses whose name contains "alpha". -/
def entryHot : CacheEntry :=
  ⟨"u5", 0, "o/alpha", mkRecord (mkMeta "alpha" "o/alpha" 10), 0, 0, 1000, 5, 0⟩

/-- A valid entry with three accesses whose name also contains "alpha". -/
def entryCold : CacheEntry :=
  ⟨"u3", 0, "o/alphabet", mkRecord (mkMeta "alphabet" "o/alphabet" 99), 1, 1, 1000, 3, 1⟩

/-- The two matching entries with the hot one created first. -/
def storeHotFirst : CacheService := ⟨[entryHot, entryCold], 8, 2⟩

/-- The two matching entries with the cold one created first. -/
def storeColdFirst : CacheService := ⟨[entryCold, entryHot], 8, 2⟩

/-! ## Theorems -/

/-! ### Character-level facts -/

/-- ofNat on a valid code point round-trips through toNat. -/
theorem charOfNatValid_toNat (n : Nat) (h : n.isValidChar) :
    (Char.ofNat n).toNat = n := by
  unfold Char.ofNat
  rw [dif_pos h]
  unfold Char.ofNatAux Char.toNat
  simp [UInt32.toNat, BitVec.toNat_ofNatLt]

/-- ASCII lower-casing is idempotent. -/
theorem toLower_toLower (c : Char) :
    Char.toLower (Char.toLower c) = Char.toLower c := by
  unfold Char.toLower
  by_cases h : c.toNat ≥ 65 ∧ c.toNat ≤ 90
  · have ht : (Char.ofNat (c.toNat + 32)).toNat = c.toNat + 32 :=
      charOfNatValid_toNat _ (Or.inl (by omega))
    rw [if_pos h, if_neg]
    rw [ht]
    omega
  · rw [if_neg h, if_neg h]

/-- A whitespace character has one of the four whitespace codes. -/
theorem toNat_of_isWsChar (x : Char) (h : isWsChar x = true) :
    x.toNat = 32 ∨ x.toNat = 9 ∨ x.toNat = 13 ∨ x.toNat = 10 := by
  unfold isWsChar at h
  simp only [Bool.or_eq_true, decide_eq_true_eq] at h
  rcases h with ((rfl | rfl) | rfl) | rfl
  · exact Or.inl rfl
  · exact Or.inr (Or.inl rfl)
  · exact Or.inr (Or.inr (Or.inl rfl))
  · exact Or.inr (Or.inr (Or.inr rfl))

/-- A character whose code is none of the four whitespace codes is not
whitespace. -/
theorem isWsChar_eq_false_of_toNat (x : Char) (h32 : x.toNat ≠ 32)
    (h9 : x.toNat ≠ 9) (h13 : x.toNat ≠ 13) (h10 : x.toNat ≠ 10) :
    isWsChar x = false := by
  cases hws : isWsChar x with
  | false => rfl
  | true => rcases toNat_of_isWsChar x hws with h | h | h | h <;> omega

/-- Lower-casing does not change whether a character is whitespace. -/
theorem isWsChar_toLower (c : Char) :
    isWsChar (Char.toLower c) = isWsChar c := by
  unfold Char.toLower
  by_cases h : c.toNat ≥ 65 ∧ c.toNat ≤ 90
  · have ht : (Char.ofNat (c.toNat + 32)).toNat = c.toNat + 32 :=
      charOfNatValid_toNat _ (Or.inl (by omega))
    rw [if_pos h]
    rw [isWsChar_eq_false_of_toNat _ (by omega) (by omega) (by omega) (by omega)]
    rw [isWsChar_eq_false_of_toNat c (by omega) (by omega) (by omega) (by omega)]
  · rw [if_neg h]

/-! ### Normalizer facts -/

/-- Dropping while a predicate holds is idempotent. -/
theorem dropWhile_dropWhile (p : α → Bool) (l : List α) :
    (l.dropWhile p).dropWhile p = l.dropWhile p := by
  induction l with
  | nil => rfl
  | cons a t ih =>
    by_cases h : p a
    · simp [List.dropWhile_cons, h, ih]
    · simp [List.dropWhile_cons, h]

/-- The head surviving a dropWhile fails the predicate. -/
theorem head_dropWhile_false (p : α → Bool) (l : List α) (c : α) (t : List α)
    (h : l.dropWhile p = c :: t) : p c = false := by
  have h2 := List.head?_dropWhile_not p l
  rw [h] at h2
  exact h2

/-- Lower-casing twice is lower-casing once. -/
theorem jsLower_jsLower (l : List Char) : jsLower (jsLower l) = jsLower l := by
  unfold jsLower
  rw [List.map_map]
  exact List.map_congr_left fun c _ => toLower_toLower c

/-- Trimming commutes with lower-casing. -/
theorem jsTrim_jsLower (l : List Char) :
    jsTrim (jsLower l) = jsLower (jsTrim l) := by
  have hp : (isWsChar ∘ Char.toLower) = isWsChar := funext fun c => isWsChar_toLower c
  unfold jsTrim jsLower
  rw [List.dropWhile_map, hp, ← List.map_reverse, List.dropWhile_map, hp,
    ← List.map_reverse]

/-- A list with a non-whitespace head and a non-whitespace last character
is already trimmed. -/
theorem jsTrim_eq_self (m : List Char)
    (hhead : ∀ c t, m = c :: t → isWsChar c = false)
    (hlast : ∀ c t, m.reverse = c :: t → isWsChar c = false) :
    jsTrim m = m := by
  unfold jsTrim
  have h1 : m.dropWhile isWsChar = m := by
    cases hm : m with
    | nil => rfl
    | cons c t => rw [List.dropWhile_cons, hhead c t hm]; simp
  rw [h1]
  have h2 : m.reverse.dropWhile isWsChar = m.reverse := by
    cases hm : m.reverse with
    | nil => rfl
    | cons c t => rw [List.dropWhile_cons, hlast c t hm]; simp
  rw [h2, List.reverse_reverse]

/-- The head of a trimmed list is not whitespace. -/
theorem jsTrim_head (l : List Char) (c : Char) (t : List Char)
    (h : jsTrim l = c :: t) : isWsChar c = false := by
  unfold jsTrim at h
  obtain ⟨r, hr⟩ :=
    List.dropWhile_suffix (l := (l.dropWhile isWsChar).reverse) isWsChar
  have hA : l.dropWhile isWsChar = c :: (t ++ r.reverse) := by
    have h2 : (l.dropWhile isWsChar)
        = ((l.dropWhile isWsChar).reverse).reverse := (List.reverse_reverse _).symm
    rw [h2, ← hr, List.reverse_append, h]
    rfl
  exact head_dropWhile_false isWsChar l c _ hA

/-- The last character of a trimmed list is not whitespace. -/
theorem jsTrim_last (l : List Char) (c : Char) (t : List Char)
    (h : (jsTrim l).reverse = c :: t) : isWsChar c = false := by
  unfold jsTrim at h
  rw [List.reverse_reverse] at h
  exact head_dropWhile_false isWsChar _ c t h

/-- Trimming is idempotent. -/
theorem jsTrim_jsTrim (l : List Char) : jsTrim (jsTrim l) = jsTrim l :=
  jsTrim_eq_self (jsTrim l) (jsTrim_head l) (jsTrim_last l)

/-- When neither stripped suffix is present, normalization is exactly the
lower-cased trim. -/
theorem normalizeChars_of_no_suffix (l : List Char)
    (h1 : ".git".data.isSuffixOf (jsLower (jsTrim l)) = false)
    (h2 : ['/'].isSuffixOf (jsLower (jsTrim l)) = false) :
    normalizeChars l = jsLower (jsTrim l) := by
  unfold normalizeChars dropSuffixOnce
  rw [h1]
  simp only [Bool.false_eq_true, if_false]
  rw [h2]
  simp

/-- C4 counterexample: normalization is not idempotent on the valid
reference "https://github.com/o/r.git/" (the first pass strips only the
slash, leaving a ".git" that a second pass strips), and the URL form and
the SSH form of one repository normalize to two different cache keys. -/
theorem normalizeUrl_not_idempotent :
    normalizeUrl (normalizeUrl "https://github.com/o/r.git/")
      ≠ normalizeUrl "https://github.com/o/r.git/"
    ∧ (parseGitHubUrl "https://github.com/o/r.git/").isSome = true
    ∧ normalizeUrl "https://github.com/owner/repo"
      ≠ normalizeUrl "git@github.com:owner/repo" := by
  refine ⟨?_, ?_, ?_⟩ <;> decide

/-- C4 (amended): normalization is idempotent for every reference whose
trimmed lower-cased form ends in neither ".git" nor "/" — in particular
for canonical web references — but not in general, and the URL form and
the SSH form of one repository normalize to different keys (the SSH shape
is kept as is). -/
theorem normalizeUrl_idem_of_clean_tail :
    (∀ s : String,
        ".git".data.isSuffixOf (jsLower (jsTrim s.data)) = false →
        ['/'].isSuffixOf (jsLower (jsTrim s.data)) = false →
        normalizeUrl (normalizeUrl s) = normalizeUrl s)
    ∧ normalizeUrl "https://github.com/owner/repo"
      = "https://github.com/owner/repo"
    ∧ normalizeUrl "git@github.com:owner/repo"
      = "git@github.com:owner/repo" := by
  refine ⟨?_, by decide, by decide⟩
  intro s h1 h2
  have hz : normalizeChars s.data = jsLower (jsTrim s.data) :=
    normalizeChars_of_no_suffix s.data h1 h2
  have hfix : normalizeChars (jsLower (jsTrim s.data))
      = jsLower (jsTrim s.data) := by
    have htr : jsTrim (jsLower (jsTrim s.data)) = jsLower (jsTrim s.data) := by
      rw [jsTrim_jsLower, jsTrim_jsTrim]
    have hlo : jsLower (jsTrim (jsLower (jsTrim s.data)))
        = jsLower (jsTrim s.data) := by
      rw [htr, jsLower_jsLower]
    have h1b : ".git".data.isSuffixOf
        (jsLower (jsTrim (jsLower (jsTrim s.data)))) = false := by
      rw [hlo]; exact h1
    have h2b : ['/'].isSuffixOf
        (jsLower (jsTrim (jsLower (jsTrim s.data)))) = false := by
      rw [hlo]; exact h2
    rw [normalizeChars_of_no_suffix _ h1b h2b, hlo]
  show (⟨normalizeChars (normalizeUrl s).data⟩ : String) = normalizeUrl s
  unfold normalizeUrl
  rw [hz]
  show (⟨normalizeChars (jsLower (jsTrim s.data))⟩ : String) = _
  rw [hfix]

/-- C4 witness: the clean-tail idempotence applied to a concrete mixed-case
web reference. -/
theorem normalizeUrl_idem_witness :
    normalizeUrl (normalizeUrl "https://github.com/Owner/Repo")
      = normalizeUrl "https://github.com/Owner/Repo" :=
  normalizeUrl_idem_of_clean_tail.1 "https://github.com/Owner/Repo"
    (by decide) (by decide)

/-! ### Scoring engine facts -/

/-- Rounding keeps a value of [0, 100] in [0, 100]. -/
theorem jsRound_bounds (x : ℚ) (h0 : 0 ≤ x) (h1 : x ≤ 100) :
    0 ≤ jsRound x ∧ jsRound x ≤ 100 := by
  unfold jsRound
  constructor
  · exact Int.floor_nonneg.mpr (by linarith)
  · have h2 : ⌊x + 1/2⌋ ≤ ⌊(201 : ℚ)/2⌋ := Int.floor_le_floor (by linarith)
    have h3 : ⌊(201 : ℚ)/2⌋ = 100 := by norm_num [Int.floor_eq_iff]
    omega

/-- C1 counterexample: the record with zero stars, forks and contributors
and no description or homepage, updated at the present instant, scores 20
(the full recency credit), not 0. -/
theorem calculateProjectScore_zero_record_just_updated :
    calculateProjectScore repoEmpty ⟨0, 0, 0⟩ 0 = 20 := by
  norm_num [calculateProjectScore, jsRound, truthyStr, repoEmpty, min_def,
    max_def, Int.floor_eq_iff]

/-- C1 (amended): the quality score lies in [0, 100] for every record and
analytics value; the record with zero stars, forks and contributors, no
description or homepage, and a last update at least 140 days old scores
exactly 0 (staleness is needed because recency alone contributes up to 20
points). -/
theorem calculateProjectScore_range :
    (∀ (repo : RepoMeta) (analytics : Analytics) (now : Int),
        0 ≤ calculateProjectScore repo analytics now
        ∧ calculateProjectScore repo analytics now ≤ 100)
    ∧ (∀ (repo : RepoMeta) (analytics : Analytics) (now : Int),
        repo.stargazersCount = 0 → repo.forksCount = 0 →
        analytics.contributorCount = 0 →
        truthyStr repo.description = false →
        truthyStr repo.homepage = false →
        140 * 86400000 ≤ now - repo.updatedAt →
        calculateProjectScore repo analytics now = 0) := by
  constructor
  · intro repo analytics now
    simp only [calculateProjectScore]
    refine jsRound_bounds _ (le_min ?_ (by norm_num)) (min_le_right _ _)
    have h1 : (0:ℚ) ≤ min ((repo.stargazersCount : ℚ) / 10) 40 :=
      le_min (by positivity) (by norm_num)
    have h2 : (0:ℚ) ≤ min ((repo.forksCount : ℚ) / 5) 20 :=
      le_min (by positivity) (by norm_num)
    have h3 : (0:ℚ) ≤ max
        (20 - ((now : ℚ) - (repo.updatedAt : ℚ)) / (1000 * 60 * 60 * 24) / 7)
        0 := le_max_right _ _
    have h4 : (0:ℚ) ≤ min ((analytics.contributorCount : ℚ) * 2) 10 :=
      le_min (by positivity) (by norm_num)
    have h5 : (0:ℚ) ≤ if truthyStr repo.description then (5:ℚ) else 0 := by
      split <;> norm_num
    have h6 : (0:ℚ) ≤ if truthyStr repo.homepage then (5:ℚ) else 0 := by
      split <;> norm_num
    linarith
  · intro repo analytics now hs hf hc hdsc hhp hupd
    simp only [calculateProjectScore]
    set d : ℚ := ((now : ℚ) - (repo.updatedAt : ℚ)) / (1000 * 60 * 60 * 24)
      with hdse
    have hd140 : (140 : ℚ) ≤ d := by
      rw [hdse, le_div_iff₀ (by norm_num)]
      have hcast := (Int.cast_le (R := ℚ)).mpr hupd
      push_cast at hcast
      linarith
    have hmax : max (20 - d / 7) 0 = 0 := max_eq_right (by linarith)
    simp only [hs, hf, hc, hdsc, hhp, hmax, Nat.cast_zero, Bool.false_eq_true,
      if_false]
    norm_num [jsRound, min_def, Int.floor_eq_iff]

/-- C1 witness: the bounds and the amended degenerate case at concrete
inputs (a record 140 days stale). -/
theorem calculateProjectScore_range_witness :
    calculateProjectScore repoEmpty ⟨0, 0, 0⟩ 12096000000 = 0 :=
  calculateProjectScore_range.2 repoEmpty ⟨0, 0, 0⟩ 12096000000 rfl rfl rfl
    rfl rfl (by decide)

/-- C2: the end-to-end scoring scenario — a thousand stars (capped at 40),
a hundred forks (capped at 20), an update at the present instant (full 20
recency points), five contributors (capped at 10) and both description and
homepage present (10 bonus points) — totals exactly 100. -/
theorem calculateProjectScore_saturated_scenario :
    calculateProjectScore repoFull ⟨0, 5, 0⟩ 0 = 100 := by
  have hd : ¬ (("d" : String) = "") := by decide
  have hh : ¬ (("h" : String) = "") := by decide
  norm_num [calculateProjectScore, jsRound, truthyStr, repoFull, min_def,
    max_def, Int.floor_eq_iff, hd, hh]

/-! ### Parser facts -/

/-- A successful literal strip decomposes the input. -/
theorem dropLit_eq_some (lit l r : List Char) (h : dropLit lit l = some r) :
    l = lit ++ r := by
  unfold dropLit at h
  by_cases hpre : lit.isPrefixOf l = true
  · rw [if_pos hpre] at h
    obtain ⟨t, rfl⟩ := List.isPrefixOf_iff_prefix.mp hpre
    rw [List.drop_left] at h
    cases h
    rfl
  · rw [if_neg hpre] at h
    cases h

/-- A successful pattern-1 head means the input starts with the plain or
the TLS github.com origin. -/
theorem matchHttpHead_origin (l r : List Char) (h : matchHttpHead l = some r) :
    l = "http://github.com/".data ++ r ∨ l = "https://github.com/".data ++ r := by
  unfold matchHttpHead at h
  cases h4 : dropLit "https://github.com/".data l with
  | some m =>
    rw [h4] at h
    have h5 : some m = some r := h
    cases h5
    exact Or.inr (dropLit_eq_some _ _ _ h4)
  | none =>
    rw [h4] at h
    have h5 : dropLit "http://github.com/".data l = some r := h
    exact Or.inl (dropLit_eq_some _ _ _ h5)

/-- A successful pattern-2 match means the input starts with the SSH
github.com head. -/
theorem matchSshPattern_head (s : String) (h : matchSshPattern s ≠ none) :
    "git@github.com:".data.isPrefixOf s.data = true := by
  unfold matchSshPattern at h
  cases hg : dropLit "git@github.com:".data s.data with
  | none => rw [hg] at h; exact absurd rfl h
  | some r =>
    have hs := dropLit_eq_some _ _ _ hg
    rw [hs]
    exact List.isPrefixOf_iff_prefix.mpr ⟨r, rfl⟩

/-- C9: the parser accepts only github.com references — every successful
parse starts with the plain or TLS web origin or the SSH head — and it
accepts the two canonical github.com forms while rejecting the same path
on another host. -/
theorem parseGitHubUrl_host_restriction :
    (∀ s : String, (parseGitHubUrl s).isSome = true →
        "http://github.com/".data.isPrefixOf s.data = true
        ∨ "https://github.com/".data.isPrefixOf s.data = true
        ∨ "git@github.com:".data.isPrefixOf s.data = true)
    ∧ parseGitHubUrl "https://gitlab.com/owner/repo" = none
    ∧ parseGitHubUrl "https://github.com/owner/repo" = some ("owner", "repo")
    ∧ parseGitHubUrl "git@github.com:owner/repo" = some ("owner", "repo") := by
  refine ⟨?_, by decide, by decide, by decide⟩
  intro s h
  unfold parseGitHubUrl at h
  cases hh : matchHttpHead s.data with
  | some r =>
    rcases matchHttpHead_origin _ _ hh with h1 | h1
    · exact Or.inl (by rw [h1]; exact List.isPrefixOf_iff_prefix.mpr ⟨r, rfl⟩)
    · exact Or.inr (Or.inl
        (by rw [h1]; exact List.isPrefixOf_iff_prefix.mpr ⟨r, rfl⟩))
  | none =>
    rw [hh] at h
    refine Or.inr (Or.inr (matchSshPattern_head s ?_))
    intro hnone
    rw [hnone] at h
    cases h

/-- C9 witness: the host restriction applied to a concrete successful
parse. -/
theorem parseGitHubUrl_host_witness :
    "http://github.com/".data.isPrefixOf "https://github.com/owner/repo".data
      = true
    ∨ "https://github.com/".data.isPrefixOf
        "https://github.com/owner/repo".data = true
    ∨ "git@github.com:".data.isPrefixOf "https://github.com/owner/repo".data
      = true :=
  parseGitHubUrl_host_restriction.1 "https://github.com/owner/repo" (by decide)

/-! ### Aggregator facts -/

/-- C6: when the mandatory metadata fetch succeeds the pipeline returns a
composite record with no pipeline-level error, and each failed optional
fetch is replaced by its documented default: a failed README fetch gives a
null README, a failed language fetch the empty histogram with primary
Unknown, a failed directory listing all-empty technology buckets, and
failed analytics sub-fetches all-zero counts. -/
theorem analyzeRepository_partial_failure_defaults :
    ∀ (repoData : RepoMeta) (readme : Except String (Option Readme))
      (languagesApi : Except String (List (String × Nat)))
      (contentsApi : Except String (List ContentsItem))
      (pkgApi : Except String (List String))
      (commits contributors releases : Except String Nat) (now : Int),
    ∃ rec, analyzeRepository (Except.ok repoData) readme languagesApi
        contentsApi pkgApi commits contributors releases now = Except.ok rec
      ∧ (∀ err, readme = Except.error err → rec.readme = none)
      ∧ (∀ err, languagesApi = Except.error err →
          rec.languages = ⟨[], "Unknown"⟩)
      ∧ (∀ err, contentsApi = Except.error err →
          rec.techStack = emptyTechStack)
      ∧ (∀ e1 e2 e3, commits = Except.error e1 →
          contributors = Except.error e2 → releases = Except.error e3 →
          rec.analytics = ⟨0, 0, 0⟩) := by
  intro repoData readme languagesApi contentsApi pkgApi commits contributors
    releases now
  refine ⟨_, rfl, ?_, ?_, ?_, ?_⟩
  · rintro err rfl
    rfl
  · rintro err rfl
    rfl
  · rintro err rfl
    rfl
  · rintro e1 e2 e3 rfl rfl rfl
    rfl

/-- C6 witness: all four optional fetches failing at once still yields a
record carrying every documented default. -/
theorem analyzeRepository_defaults_witness :
    ∃ rec, analyzeRepository (Except.ok repoEmpty) (Except.error "e")
        (Except.error "e") (Except.error "e") (Except.error "e")
        (Except.error "e") (Except.error "e") (Except.error "e") 0
        = Except.ok rec
      ∧ rec.readme = none ∧ rec.languages = ⟨[], "Unknown"⟩
      ∧ rec.techStack = emptyTechStack ∧ rec.analytics = ⟨0, 0, 0⟩ := by
  obtain ⟨rec, h, h1, h2, h3, h4⟩ :=
    analyzeRepository_partial_failure_defaults repoEmpty (Except.error "e")
      (Except.error "e") (Except.error "e") (Except.error "e")
      (Except.error "e") (Except.error "e") (Except.error "e") 0
  exact ⟨rec, h, h1 "e" rfl, h2 "e" rfl, h3 "e" rfl,
    h4 "e" "e" "e" rfl rfl rfl⟩

/-! ### Store-level helper facts -/

/-- Deleting a key removes it. -/
theorem cacheGet_delete_self (key : String) (l : List CacheEntry) :
    cacheGet key (cacheDelete key l) = none := by
  unfold cacheGet cacheDelete
  rw [List.find?_eq_none]
  intro x hx
  rw [List.mem_filter] at hx
  simp only [bne_iff_ne, ne_eq] at hx
  simp only [beq_iff_eq]
  exact hx.2

/-- Deleting a key leaves every other key alone. -/
theorem cacheGet_delete_ne (key k2 : String) (h : k2 ≠ key)
    (l : List CacheEntry) :
    cacheGet k2 (cacheDelete key l) = cacheGet k2 l := by
  unfold cacheGet cacheDelete
  induction l with
  | nil => rfl
  | cons e t ih =>
    by_cases he : e.repositoryUrl = key
    · have hb : (e.repositoryUrl != key) = false := by simp [he]
      have hb2 : (e.repositoryUrl == k2) = false := by
        simp only [beq_eq_false_iff_ne, ne_eq, he]
        exact fun hk => h hk.symm
      rw [List.filter_cons, hb]
      simp only [Bool.false_eq_true, if_false]
      rw [List.find?_cons, hb2]
      exact ih
    · have hb : (e.repositoryUrl != key) = true := by simp [he]
      rw [List.filter_cons, hb]
      simp only [if_true]
      rw [List.find?_cons, List.find?_cons]
      cases hk : e.repositoryUrl == k2 with
      | true => rfl
      | false => exact ih

/-- Replacing the entries under a key leaves every other key alone. -/
theorem cacheGet_replace_ne (key k2 : String) (h : k2 ≠ key)
    (b : CacheEntry) (hb : b.repositoryUrl = key) (l : List CacheEntry) :
    cacheGet k2 (l.map fun e => if e.repositoryUrl == key then b else e)
      = cacheGet k2 l := by
  unfold cacheGet
  induction l with
  | nil => rfl
  | cons e t ih =>
    simp only [List.map_cons, List.find?_cons]
    by_cases he : e.repositoryUrl = key
    · have hif : (if (e.repositoryUrl == key) = true then b else e) = b := by
        simp [he]
      have hb2 : (b.repositoryUrl == k2) = false := by
        simp only [beq_eq_false_iff_ne, ne_eq, hb]
        exact fun hk => h hk.symm
      have he2 : (e.repositoryUrl == k2) = false := by
        simp only [beq_eq_false_iff_ne, ne_eq, he]
        exact fun hk => h hk.symm
      rw [hif, hb2, he2]
      exact ih
    · have hif : (if (e.repositoryUrl == key) = true then b else e) = e := by
        simp [he]
      rw [hif]
      cases hk : e.repositoryUrl == k2 with
      | true => rfl
      | false => exact ih

/-- Replacing the entries under a present key stores the replacement
there. -/
theorem cacheGet_replace_self (key : String) (b : CacheEntry)
    (hb : b.repositoryUrl = key) (l : List CacheEntry) (e : CacheEntry)
    (hget : cacheGet key l = some e) :
    cacheGet key (l.map fun x => if x.repositoryUrl == key then b else x)
      = some b := by
  unfold cacheGet at hget ⊢
  induction l with
  | nil => cases hget
  | cons x t ih =>
    simp only [List.map_cons, List.find?_cons]
    by_cases hx : x.repositoryUrl = key
    · have hif : (if (x.repositoryUrl == key) = true then b else x) = b := by
        simp [hx]
      have hb2 : (b.repositoryUrl == key) = true := by simp [hb]
      rw [hif, hb2]
    · have hif : (if (x.repositoryUrl == key) = true then b else x) = x := by
        simp [hx]
      have hx2 : (x.repositoryUrl == key) = false := by simp [hx]
      rw [hif, hx2]
      rw [List.find?_cons, hx2] at hget
      exact ih hget

/-- The running sum over a tail, started anywhere. -/
theorem accessSum_go (l : List CacheEntry) (n : Nat) :
    l.foldl (fun acc e => acc + e.accessCount) n = n + accessSum l := by
  induction l generalizing n with
  | nil => simp [accessSum]
  | cons e t ih =>
    show t.foldl _ (n + e.accessCount) = n + accessSum (e :: t)
    rw [ih]
    show n + e.accessCount + accessSum t
      = n + (e :: t).foldl (fun acc e => acc + e.accessCount) 0
    show _ = n + t.foldl _ (0 + e.accessCount)
    rw [ih (0 + e.accessCount)]
    omega

/-- The sum over a cons. -/
theorem accessSum_cons (e : CacheEntry) (t : List CacheEntry) :
    accessSum (e :: t) = e.accessCount + accessSum t := by
  show (e :: t).foldl (fun acc e => acc + e.accessCount) 0 = _
  show t.foldl _ (0 + e.accessCount) = _
  rw [accessSum_go]
  omega

/-- Filtering can only shrink the access sum. -/
theorem accessSum_filter_le (p : CacheEntry → Bool) (l : List CacheEntry) :
    accessSum (l.filter p) ≤ accessSum l := by
  induction l with
  | nil => exact le_refl _
  | cons e t ih =>
    rw [List.filter_cons, accessSum_cons]
    cases p e with
    | true => rw [if_pos rfl, accessSum_cons]; omega
    | false => simp only [Bool.false_eq_true, if_false]; omega

/-- The sum over an append. -/
theorem accessSum_append (l1 l2 : List CacheEntry) :
    accessSum (l1 ++ l2) = accessSum l1 + accessSum l2 := by
  induction l1 with
  | nil => simp [accessSum]
  | cons e t ih => rw [List.cons_append, accessSum_cons, accessSum_cons, ih]; omega

/-- Replacement under the key of unique-key store shifts the sum by
exactly the difference at the replaced entry. -/
theorem accessSum_replace (key : String) (b : CacheEntry) (l : List CacheEntry)
    (hnd : (keysOf l).Nodup) (e : CacheEntry) (hget : cacheGet key l = some e) :
    accessSum (l.map fun x => if x.repositoryUrl == key then b else x)
        + e.accessCount
      = accessSum l + b.accessCount := by
  unfold cacheGet at hget
  induction l with
  | nil => cases hget
  | cons x t ih =>
    rw [keysOf, List.map_cons, List.nodup_cons] at hnd
    rw [List.find?_cons] at hget
    simp only [List.map_cons]
    rw [accessSum_cons, accessSum_cons]
    by_cases hx : x.repositoryUrl = key
    · have hx2 : (x.repositoryUrl == key) = true := by simp [hx]
      rw [hx2] at hget
      have hxe := Option.some.inj hget
      subst hxe
      have hif : (if (x.repositoryUrl == key) = true then b else x) = b := by
        simp [hx]
      rw [hif]
      have hrest : (t.map fun y => if y.repositoryUrl == key then b else y) = t := by
        have h1 : (t.map fun y => if y.repositoryUrl == key then b else y)
            = t.map id := by
          apply List.map_congr_left
          intro y hy
          have hyk : y.repositoryUrl ≠ key := by
            intro hk
            exact hnd.1 (by rw [hx, ← hk]; exact List.mem_map_of_mem _ hy)
          simp [hyk]
        rw [h1, List.map_id]
      rw [hrest]
      omega
    · have hx2 : (x.repositoryUrl == key) = false := by simp [hx]
      rw [hx2] at hget
      have hif : (if (x.repositoryUrl == key) = true then b else x) = x := by
        simp [hx]
      rw [hif]
      have := ih hnd.2 hget
      omega

/-- Replacement under a key does not change the key list when the
replacement carries that key. -/
theorem keysOf_replace (key : String) (b : CacheEntry)
    (hb : b.repositoryUrl = key) (l : List CacheEntry) :
    keysOf (l.map fun x => if x.repositoryUrl == key then b else x)
      = keysOf l := by
  unfold keysOf
  rw [List.map_map]
  apply List.map_congr_left
  intro x _
  by_cases hx : x.repositoryUrl = key
  · simp [Function.comp, hx, hb]
  · simp [Function.comp, hx]

/-- A left fold with min is bounded by its seed. -/
theorem foldlMin_le_init (l : List CacheEntry) (a : Int) :
    l.foldl (fun m x => min m x.createdAt) a ≤ a := by
  induction l generalizing a with
  | nil => exact le_refl _
  | cons e t ih =>
    exact le_trans (ih (min a e.createdAt)) (min_le_left _ _)

/-- A left fold with min is bounded by every member. -/
theorem foldlMin_le_mem (l : List CacheEntry) (a : Int) (x : CacheEntry)
    (hx : x ∈ l) : l.foldl (fun m y => min m y.createdAt) a ≤ x.createdAt := by
  induction l generalizing a with
  | nil => cases hx
  | cons e t ih =>
    rcases List.mem_cons.mp hx with hxe | hx2
    · rw [hxe]
      exact le_trans (foldlMin_le_init t (min a e.createdAt))
        (min_le_right _ _)
    · exact ih (min a e.createdAt) hx2

/-- A left fold with max dominates its seed. -/
theorem foldlMax_ge_init (l : List CacheEntry) (a : Int) :
    a ≤ l.foldl (fun m x => max m x.createdAt) a := by
  induction l generalizing a with
  | nil => exact le_refl _
  | cons e t ih =>
    exact le_trans (le_max_left _ _) (ih (max a e.createdAt))

/-- A left fold with max dominates every member. -/
theorem foldlMax_ge_mem (l : List CacheEntry) (a : Int) (x : CacheEntry)
    (hx : x ∈ l) : x.createdAt ≤ l.foldl (fun m y => max m y.createdAt) a := by
  induction l generalizing a with
  | nil => cases hx
  | cons e t ih =>
    rcases List.mem_cons.mp hx with hxe | hx2
    · rw [hxe]
      exact le_trans (le_max_right _ _)
        (foldlMax_ge_init t (max a e.createdAt))
    · exact ih (max a e.createdAt) hx2

/-! ### Stable sort facts -/

/-- Insertion produces a permutation of the cons. -/
theorem sortedInsert_perm (le : α → α → Bool) (a : α) (l : List α) :
    (sortedInsert le a l).Perm (a :: l) := by
  induction l with
  | nil => exact List.Perm.refl _
  | cons b bs ih =>
    unfold sortedInsert
    by_cases h : le a b = true
    · rw [if_pos h]
    · rw [if_neg h]
      exact (ih.cons b).trans (List.Perm.swap a b bs)

/-- The stable sort permutes its input. -/
theorem stableSort_perm (le : α → α → Bool) (l : List α) :
    (stableSort le l).Perm l := by
  induction l with
  | nil => exact List.Perm.refl _
  | cons a t ih =>
    exact (sortedInsert_perm le a (stableSort le t)).trans (ih.cons a)

/-- Membership is preserved by the stable sort. -/
theorem mem_stableSort (le : α → α → Bool) (l : List α) (x : α) :
    x ∈ stableSort le l ↔ x ∈ l :=
  (stableSort_perm le l).mem_iff

/-- Inserting into a sorted list keeps it sorted, for a total transitive
comparator. -/
theorem pairwise_sortedInsert (le : α → α → Bool)
    (htrans : ∀ a b c, le a b = true → le b c = true → le a c = true)
    (htot : ∀ a b, le a b = true ∨ le b a = true) (a : α) (l : List α)
    (hl : l.Pairwise fun x y => le x y = true) :
    (sortedInsert le a l).Pairwise fun x y => le x y = true := by
  induction l with
  | nil => simp [sortedInsert]
  | cons b bs ih =>
    rw [List.pairwise_cons] at hl
    unfold sortedInsert
    by_cases h : le a b = true
    · rw [if_pos h]
      rw [List.pairwise_cons]
      refine ⟨?_, List.pairwise_cons.mpr hl⟩
      intro x hx
      rcases List.mem_cons.mp hx with hxb | hxs
      · rw [hxb]; exact h
      · exact htrans a b x h (hl.1 x hxs)
    · rw [if_neg h]
      have hba : le b a = true := (htot a b).resolve_left h
      rw [List.pairwise_cons]
      refine ⟨?_, ih hl.2⟩
      intro x hx
      have hx2 : x ∈ a :: bs := (sortedInsert_perm le a bs).subset hx
      rcases List.mem_cons.mp hx2 with hxa | hxs
      · rw [hxa]; exact hba
      · exact hl.1 x hxs

/-- The stable sort sorts, for a total transitive comparator. -/
theorem pairwise_stableSort (le : α → α → Bool)
    (htrans : ∀ a b c, le a b = true → le b c = true → le a c = true)
    (htot : ∀ a b, le a b = true ∨ le b a = true) (l : List α) :
    (stableSort le l).Pairwise fun x y => le x y = true := by
  induction l with
  | nil => exact List.Pairwise.nil
  | cons a t ih => exact pairwise_sortedInsert le htrans htot a _ ih

/-- The search comparator is transitive. -/
theorem searchLE_trans (a b c : CacheEntry) (h1 : searchLE a b = true)
    (h2 : searchLE b c = true) : searchLE a c = true := by
  simp only [searchLE, Bool.or_eq_true, Bool.and_eq_true, decide_eq_true_eq,
    beq_iff_eq] at h1 h2 ⊢
  omega

/-- The search comparator is total. -/
theorem searchLE_total (a b : CacheEntry) :
    searchLE a b = true ∨ searchLE b a = true := by
  simp only [searchLE, Bool.or_eq_true, Bool.and_eq_true, decide_eq_true_eq,
    beq_iff_eq]
  omega

/-! ### Cache invariant preservation -/

/-- Map.set keeps keys unique and shifts the access sum by the stored
entry against any replaced one. -/
theorem cacheSet_nodup_sum (key : String) (E : CacheEntry)
    (hEk : E.repositoryUrl = key) (l : List CacheEntry)
    (hnd : (keysOf l).Nodup) :
    (keysOf (cacheSet key E l)).Nodup
    ∧ accessSum (cacheSet key E l)
        + (match cacheGet key l with
           | some e => e.accessCount
           | none => 0)
      = accessSum l + E.accessCount := by
  unfold cacheSet
  cases hget : cacheGet key l with
  | some e =>
    have hiss : ((l.find? fun x => x.repositoryUrl == key).isSome) = true := by
      unfold cacheGet at hget
      rw [hget]
      rfl
    rw [hiss]
    simp only [if_true, hget]
    constructor
    · rw [keysOf_replace key E hEk l]
      exact hnd
    · have h2 := accessSum_replace key E l hnd e hget
      omega
  | none =>
    have hiss : ((l.find? fun x => x.repositoryUrl == key).isSome) = false := by
      unfold cacheGet at hget
      rw [hget]
      rfl
    rw [hiss]
    simp only [Bool.false_eq_true, if_false, hget]
    constructor
    · rw [keysOf, List.map_append]
      rw [List.nodup_append]
      refine ⟨hnd, by simp, ?_⟩
      intro a ha hmem
      have ha2 : a = key := by
        rcases List.mem_map.mp hmem with ⟨x, hx, hxa⟩
        rcases List.mem_singleton.mp hx
        rw [← hxa, hEk]
      unfold cacheGet at hget
      rw [List.find?_eq_none] at hget
      rcases List.mem_map.mp ha with ⟨x, hx, hxa⟩
      refine hget x hx ?_
      rw [beq_iff_eq, hxa, ha2]
    · rw [accessSum_append, accessSum_cons]
      show accessSum l + (E.accessCount + accessSum []) + 0 = _
      show accessSum l + (E.accessCount + 0) + 0 = _
      omega

/-- Storing an entry whose access counter tops any replaced counter by at
most one adds at most one to the access sum. -/
theorem accessSum_cacheSet_le (key : String) (E : CacheEntry)
    (hEk : E.repositoryUrl = key) (l : List CacheEntry)
    (hnd : (keysOf l).Nodup) (tA : Nat) (hsum : accessSum l ≤ tA)
    (hacc : ∀ e, cacheGet key l = some e → E.accessCount ≤ e.accessCount + 1)
    (hacc2 : cacheGet key l = none → E.accessCount ≤ 1) :
    accessSum (cacheSet key E l) ≤ tA + 1 := by
  have h2 := (cacheSet_nodup_sum key E hEk l hnd).2
  cases hget : cacheGet key l with
  | some e =>
    simp only [hget] at h2
    have h3 := hacc e hget
    omega
  | none =>
    simp only [hget] at h2
    have h3 := hacc2 hget
    omega

/-- Every operation preserves the cache invariant. -/
theorem cacheInv_applyOp (s : CacheService) (op : CacheOp)
    (h : CacheInv s) : CacheInv (applyOp s op) := by
  obtain ⟨hnd, hsum⟩ := h
  cases op with
  | find k now =>
    cases hget : cacheGet k s.cache with
    | none =>
      simp only [applyOp, findValidCache, hget]
      exact ⟨hnd, hsum⟩
    | some e =>
      simp only [applyOp, findValidCache, hget]
      by_cases hexp : e.expiresAt < now
      · rw [if_pos hexp]
        refine ⟨?_, ?_⟩
        · exact hnd.sublist ((List.filter_sublist _).map _)
        · exact le_trans (accessSum_filter_le _ _) hsum
      · rw [if_neg hexp]
        exact ⟨hnd, hsum⟩
  | upsert k d now =>
    simp only [applyOp, upsertCache]
    constructor
    · exact (cacheSet_nodup_sum k _ rfl s.cache hnd).1
    · refine accessSum_cacheSet_le k _ rfl s.cache hnd s.totalAccesses hsum
        ?_ ?_
      · intro e hget
        simp only [hget]
        exact le_refl _
      · intro hget
        simp only [hget]
        exact le_refl _
  | access k now =>
    cases hget : cacheGet k s.cache with
    | none =>
      simp only [applyOp, recordAccess, hget]
      exact ⟨hnd, hsum⟩
    | some e =>
      have hek : e.repositoryUrl = k := by
        have h5 := List.find?_some hget
        rwa [beq_iff_eq] at h5
      simp only [applyOp, recordAccess, hget]
      have hA : (keysOf (s.cache.map fun x =>
          if x.repositoryUrl == k then
            { e with accessCount := e.accessCount + 1, lastAccessed := now }
          else x)).Nodup := by
        rw [keysOf_replace k
          { e with accessCount := e.accessCount + 1, lastAccessed := now }
          hek s.cache]
        exact hnd
      have h2 := accessSum_replace k
        { e with accessCount := e.accessCount + 1, lastAccessed := now }
        s.cache hnd e hget
      have h3 : accessSum (s.cache.map fun x =>
            if x.repositoryUrl == k then
              { e with accessCount := e.accessCount + 1, lastAccessed := now }
            else x) + e.accessCount
          = accessSum s.cache + (e.accessCount + 1) := h2
      have hB : accessSum (s.cache.map fun x =>
          if x.repositoryUrl == k then
            { e with accessCount := e.accessCount + 1, lastAccessed := now }
          else x) ≤ s.totalAccesses + 1 := by omega
      exact ⟨hA, hB⟩
  | cleanup now =>
    simp only [applyOp, cleanupExpired]
    refine ⟨?_, ?_⟩
    · exact hnd.sublist ((List.filter_sublist _).map _)
    · exact le_trans (accessSum_filter_le _ _) hsum
  | clearAll =>
    exact ⟨List.nodup_nil, Nat.zero_le _⟩

/-- The invariant holds in every reachable state. -/
theorem cacheInv_runOps (ops : List CacheOp) :
    ∀ (s : CacheService), CacheInv s → CacheInv (runOps s ops) := by
  induction ops with
  | nil => exact fun _ h => h
  | cons op rest ih =>
    exact fun s h => ih (applyOp s op) (cacheInv_applyOp s op h)

/-- C3 counterexample: an entry whose expiry equals the current instant is
returned by the lookup — the eviction test is expiry strictly before now,
so "present with expiry strictly later than now" is not necessary for a
hit. -/
theorem findValidCache_boundary_hit :
    (findValidCache storeBoundary "k" 100).1 = some entryBoundary
    ∧ entryBoundary.expiresAt = 100 := by
  refine ⟨?_, ?_⟩ <;> decide

/-- C3 (amended): the lookup returns the stored entry exactly when the key
is present and its expiry is at or after now (not strictly after); a
present entry with expiry strictly before now is deleted — that key reads
as absent afterwards, other keys are untouched, the cumulative access
counter is unchanged — and the call reports a miss; a missing key or a
hit leaves the state untouched. -/
theorem findValidCache_contract :
    ∀ (s : CacheService) (key : String) (now : Int),
      (∀ e, (findValidCache s key now).1 = some e ↔
          cacheGet key s.cache = some e ∧ now ≤ e.expiresAt)
      ∧ (∀ e, cacheGet key s.cache = some e → e.expiresAt < now →
          (findValidCache s key now).1 = none
          ∧ cacheGet key (findValidCache s key now).2.cache = none
          ∧ (∀ k2, k2 ≠ key →
              cacheGet k2 (findValidCache s key now).2.cache
                = cacheGet k2 s.cache)
          ∧ (findValidCache s key now).2.totalAccesses = s.totalAccesses)
      ∧ (cacheGet key s.cache = none → findValidCache s key now = (none, s))
      ∧ (∀ e, (findValidCache s key now).1 = some e →
          (findValidCache s key now).2 = s) := by
  intro s key now
  cases hget : cacheGet key s.cache with
  | none =>
    simp only [findValidCache, hget]
    refine ⟨?_, ?_, ?_, ?_⟩
    · intro e
      constructor
      · intro h; cases h
      · rintro ⟨h, _⟩; cases h
    · intro e h; cases h
    · intro _; trivial

    · intro e h; cases h
  | some e0 =>
    by_cases hexp : e0.expiresAt < now
    · simp only [findValidCache, hget, if_pos hexp]
      refine ⟨?_, ?_, ?_, ?_⟩
      · intro e
        constructor
        · intro h; cases h
        · rintro ⟨h, hle⟩
          exfalso
          have he := Option.some.inj h
          subst he
          omega
      · intro e h1 h2
        refine ⟨by trivial, ?_, ?_, by trivial⟩
        · exact cacheGet_delete_self key s.cache
        · intro k2 hk2
          exact cacheGet_delete_ne key k2 hk2 s.cache
      · intro h; cases h
      · intro e h; cases h
    · simp only [findValidCache, hget, if_neg hexp]
      refine ⟨?_, ?_, ?_, ?_⟩
      · intro e
        constructor
        · intro h
          refine ⟨h, ?_⟩
          have he := Option.some.inj h
          subst he
          omega
        · rintro ⟨h, _⟩
          exact h
      · intro e h1 h2
        exfalso
        have he := Option.some.inj h1
        subst he
        omega
      · intro h; cases h
      · intro e _; trivial

/-- C3 witness: the lookup contract applied on a hit well before expiry. -/
theorem findValidCache_contract_witness :
    (findValidCache storeBoundary "k" 50).1 = some entryBoundary :=
  ((findValidCache_contract storeBoundary "k" 50).1 entryBoundary).mpr
    ⟨by decide, by decide⟩

/-- C5 counterexample: recordAccess on an expired entry is not a no-op —
the source never tests expiry there, so the stale entry's counter moves
from 1 to 2. -/
theorem recordAccess_expired_increments :
    entryStale.expiresAt < 100
    ∧ cacheGet "k" (recordAccess storeStale "k" 100).2.cache
      = some { entryStale with accessCount := 2, lastAccessed := 100 }
    ∧ (recordAccess storeStale "k" 100).2.totalAccesses
      = storeStale.totalAccesses + 1 := by
  refine ⟨?_, ?_, ?_⟩ <;> decide

/-- C5 (amended): recordAccess is a no-op exactly when the key is absent;
whenever an entry is present — expired or not — its access counter grows
by one (a strict increase), its last-access time is set to now, the
cumulative access counter grows by one, and other keys are untouched. -/
theorem recordAccess_contract :
    ∀ (s : CacheService) (key : String) (now : Int),
      (cacheGet key s.cache = none → recordAccess s key now = (none, s))
      ∧ (∀ e, cacheGet key s.cache = some e →
          (recordAccess s key now).1
            = some { e with
                accessCount := e.accessCount + 1
                lastAccessed := now }
          ∧ cacheGet key (recordAccess s key now).2.cache
            = some { e with
                accessCount := e.accessCount + 1
                lastAccessed := now }
          ∧ e.accessCount
            < ({ e with
                accessCount := e.accessCount + 1
                lastAccessed := now } : CacheEntry).accessCount
          ∧ (∀ k2, k2 ≠ key →
              cacheGet k2 (recordAccess s key now).2.cache
                = cacheGet k2 s.cache)
          ∧ (recordAccess s key now).2.totalAccesses
            = s.totalAccesses + 1) := by
  intro s key now
  cases hget : cacheGet key s.cache with
  | none =>
    simp only [recordAccess, hget]
    refine ⟨fun _ => by trivial, ?_⟩
    intro e h
    cases h
  | some e0 =>
    simp only [recordAccess, hget]
    refine ⟨?_, ?_⟩
    · intro h; cases h
    · intro e h
      have he := Option.some.inj h
      subst he
      have hek : e0.repositoryUrl = key := by
        have h5 := List.find?_some hget
        rwa [beq_iff_eq] at h5
      refine ⟨by trivial, ?_, Nat.lt_succ_self _, ?_, by trivial⟩
      · exact cacheGet_replace_self key
          { e0 with accessCount := e0.accessCount + 1, lastAccessed := now }
          hek s.cache e0 hget
      · intro k2 hk2
        exact cacheGet_replace_ne key k2 hk2
          { e0 with accessCount := e0.accessCount + 1, lastAccessed := now }
          hek s.cache

/-- C5 witness: the contract applied to the concrete stale store. -/
theorem recordAccess_contract_witness :
    (recordAccess storeStale "k" 100).1
      = some { entryStale with
          accessCount := entryStale.accessCount + 1
          lastAccessed := 100 } :=
  (((recordAccess_contract storeStale "k" 100).2 entryStale (by decide))).1

/-- C7 counterexample: after storing one record and clearing, the reported
cumulative access counter is still 1 while the store is empty — it is not
the sum of the access counters of the entries currently stored (that sum
is 0). -/
theorem getCacheStats_totalAccesses_after_clear :
    (getCacheStats (runOps CacheService.init
        [CacheOp.upsert "k" (mkRecord (mkMeta "r" "o/r" 0)) 0,
         CacheOp.clearAll]) 0).totalAccesses = 1
    ∧ (runOps CacheService.init
        [CacheOp.upsert "k" (mkRecord (mkMeta "r" "o/r" 0)) 0,
         CacheOp.clearAll]).cache = []
    ∧ accessSum (runOps CacheService.init
        [CacheOp.upsert "k" (mkRecord (mkMeta "r" "o/r" 0)) 0,
         CacheOp.clearAll]).cache = 0 := by
  refine ⟨?_, ?_, ?_⟩ <;> decide

/-- C7 (amended): the stats report counts all entries, splits them into
valid and expired against now, reports the mean access counter as the sum
over current entries divided by their number, and brackets every entry's
creation time between the reported oldest and newest; its totalAccesses
field however is the service's cumulative counter — in every reachable
state it dominates the sum of the stored counters (deletions never
subtract), and the two differ after a clear. -/
theorem getCacheStats_contract :
    (∀ (s : CacheService) (now : Int),
        (getCacheStats s now).totalEntries = s.cache.length
        ∧ (getCacheStats s now).validEntries
            + (getCacheStats s now).expiredEntries
          = (getCacheStats s now).totalEntries
        ∧ (getCacheStats s now).validEntries
          = (s.cache.filter fun e => now < e.expiresAt).length
        ∧ (getCacheStats s now).totalAccesses = s.totalAccesses
        ∧ (s.cache.length ≠ 0 →
            (getCacheStats s now).avgAccessCount * (s.cache.length : ℚ)
              = (accessSum s.cache : ℚ))
        ∧ (∀ e ∈ s.cache, ∃ m M,
            (getCacheStats s now).oldestEntry = some m
            ∧ (getCacheStats s now).newestEntry = some M
            ∧ m ≤ e.createdAt ∧ e.createdAt ≤ M))
    ∧ (∀ ops : List CacheOp,
        accessSum (runOps CacheService.init ops).cache
          ≤ (runOps CacheService.init ops).totalAccesses) := by
  constructor
  · intro s now
    simp only [getCacheStats]
    refine ⟨by trivial, ?_, by trivial, by trivial, ?_, ?_⟩
    · have h1 := List.length_filter_le
        (fun e : CacheEntry => decide (now < e.expiresAt)) s.cache
      omega
    · intro hne
      rw [if_pos (by omega : s.cache.length > 0)]
      exact div_mul_cancel₀ _ (Nat.cast_ne_zero.mpr hne)
    · intro e he
      rcases hc : s.cache with _ | ⟨a, t⟩
      · rw [hc] at he
        cases he
      · rw [hc] at he
        refine ⟨t.foldl (fun m y => min m y.createdAt) a.createdAt,
          t.foldl (fun m y => max m y.createdAt) a.createdAt,
          ?_, ?_, ?_, ?_⟩
        · rfl
        · rfl
        · rcases List.mem_cons.mp he with hea | het
          · rw [hea]
            exact foldlMin_le_init t a.createdAt
          · exact foldlMin_le_mem t a.createdAt e het
        · rcases List.mem_cons.mp he with hea | het
          · rw [hea]
            exact foldlMax_ge_init t a.createdAt
          · exact foldlMax_ge_mem t a.createdAt e het
  · intro ops
    exact (cacheInv_runOps ops CacheService.init
      ⟨List.nodup_nil, Nat.le_refl 0⟩).2

/-- C7 witness: the stats contract evaluated on the concrete one-entry
store. -/
theorem getCacheStats_contract_witness :
    (getCacheStats storeBoundary 0).avgAccessCount
        * (storeBoundary.cache.length : ℚ)
      = (accessSum storeBoundary.cache : ℚ)
    ∧ ∃ m M, (getCacheStats storeBoundary 0).oldestEntry = some m
        ∧ (getCacheStats storeBoundary 0).newestEntry = some M
        ∧ m ≤ entryBoundary.createdAt ∧ entryBoundary.createdAt ≤ M :=
  ⟨(getCacheStats_contract.1 storeBoundary 0).2.2.2.2.1 (by decide),
   (getCacheStats_contract.1 storeBoundary 0).2.2.2.2.2 entryBoundary
     (by decide)⟩

/-- C8: every returned search row comes from a stored, non-expired entry
matching the query case-insensitively; the returned page is ordered by
access counter descending with star-count ties broken descending; and on
the concrete two-entry stores the entry with five accesses outranks the
one with three in both creation orders. -/
theorem searchRepositories_ranking :
    (∀ (s : CacheService) (query : String) (page limit : Nat) (now : Int) r,
        r ∈ (searchRepositories s query page limit now).results →
        ∃ e, e ∈ s.cache ∧ now < e.expiresAt
          ∧ entryMatches ⟨jsLower query.data⟩ e = true
          ∧ r = toSearchResult e)
    ∧ (∀ (s : CacheService) (query : String) (page limit : Nat) (now : Int),
        (searchRepositories s query page limit now).results.Pairwise
          rankedBefore)
    ∧ (searchRepositories storeHotFirst "alpha" 1 10 0).results.map
        (·.accessCount) = [5, 3]
    ∧ (searchRepositories storeColdFirst "alpha" 1 10 0).results.map
        (·.accessCount) = [5, 3] := by
  refine ⟨?_, ?_, by decide, by decide⟩
  · intro s query page limit now r hr
    simp only [searchRepositories] at hr
    rw [List.mem_map] at hr
    obtain ⟨e, he, hre⟩ := hr
    have he2 : e ∈ stableSort searchLE
        ((s.cache.filter fun x => now < x.expiresAt).filter
          (entryMatches ⟨jsLower query.data⟩)) :=
      List.mem_of_mem_drop (List.mem_of_mem_take he)
    rw [mem_stableSort] at he2
    rw [List.mem_filter] at he2
    obtain ⟨he3, hmatch⟩ := he2
    rw [List.mem_filter] at he3
    obtain ⟨he4, hvalid⟩ := he3
    exact ⟨e, he4, of_decide_eq_true hvalid, hmatch, hre.symm⟩
  · intro s query page limit now
    simp only [searchRepositories]
    rw [List.pairwise_map]
    refine List.Pairwise.sublist
      ((List.take_sublist _ _).trans (List.drop_sublist _ _)) ?_
    refine (pairwise_stableSort searchLE searchLE_trans searchLE_total _).imp
      ?_
    intro a b hab
    simp only [searchLE, Bool.or_eq_true, Bool.and_eq_true,
      decide_eq_true_eq, beq_iff_eq] at hab
    unfold rankedBefore toSearchResult
    rcases hab with h1 | ⟨h1, h2⟩
    · exact Or.inl h1
    · exact Or.inr ⟨h1, h2⟩

/-- C8 witness: the membership characterization applied to the top row of
the concrete search. -/
theorem searchRepositories_ranking_witness :
    ∃ e, e ∈ storeHotFirst.cache ∧ (0 : Int) < e.expiresAt
      ∧ entryMatches ⟨jsLower "alpha".data⟩ e = true
      ∧ toSearchResult entryHot = toSearchResult e :=
  searchRepositories_ranking.1 storeHotFirst "alpha" 1 10 0
    (toSearchResult entryHot) (by decide)

/-- C10: the cumulative access counter never decreases under any single
operation nor under any operation sequence — deletions by lookup
eviction, sweep and clear leave it alone — and concretely, after an
upsert and a clear the stats report one access against zero entries. -/
theorem totalAccesses_monotone :
    (∀ (s : CacheService) (op : CacheOp),
        s.totalAccesses ≤ (applyOp s op).totalAccesses)
    ∧ (∀ (s : CacheService) (ops : List CacheOp),
        s.totalAccesses ≤ (runOps s ops).totalAccesses)
    ∧ (getCacheStats (runOps CacheService.init
          [CacheOp.upsert "q" (mkRecord (mkMeta "n" "o/n" 3)) 5,
           CacheOp.clearAll]) 5).totalAccesses = 1
    ∧ (getCacheStats (runOps CacheService.init
          [CacheOp.upsert "q" (mkRecord (mkMeta "n" "o/n" 3)) 5,
           CacheOp.clearAll]) 5).totalEntries = 0 := by
  have hstep : ∀ (s : CacheService) (op : CacheOp),
      s.totalAccesses ≤ (applyOp s op).totalAccesses := by
    intro s op
    cases op with
    | find k now =>
      cases hget : cacheGet k s.cache with
      | none =>
        simp only [applyOp, findValidCache, hget]
        exact Nat.le_refl _
      | some e =>
        simp only [applyOp, findValidCache, hget]
        by_cases hexp : e.expiresAt < now
        · rw [if_pos hexp]
        · rw [if_neg hexp]
    | upsert k d now => exact Nat.le_succ _
    | access k now =>
      cases hget : cacheGet k s.cache with
      | none =>
        simp only [applyOp, recordAccess, hget]
        exact Nat.le_refl _
      | some e =>
        simp only [applyOp, recordAccess, hget]
        exact Nat.le_succ _
    | cleanup now => exact Nat.le_refl _
    | clearAll => exact Nat.le_refl _
  refine ⟨hstep, ?_, by decide, by decide⟩
  intro s ops
  induction ops generalizing s with
  | nil => exact Nat.le_refl _
  | cons op rest ih =>
    exact Nat.le_trans (hstep s op) (ih (applyOp s op))
